import Mathlib

/-!
# SLABatMon — verification of the specification against the sketches

A shallow embedding of the SLABatMon repository (SLABatMon-v3.ino,
SLABatMon.ino, AV33Tests.ino).  Floating point arithmetic of the
sketches is modelled over `ℚ` (the float computations involved stay
exact for in-range ADC data), C `int`/`byte` values are `ℕ`, and the C
cast from a nonnegative float to `int` is `Nat.floor`.  The Arduino
`millis` clock is modelled as elapsed milliseconds, reduced modulo
`2 ^ 32` wherever the sketches store or subtract `unsigned long`
values.
-/

namespace SLABatMon

/-- Constant `AVREF` (3.3): the known reference voltage on pin A7. -/
def AVREF : ℚ := 33 / 10

/-- Constant `ADCLEVELS` (1024): number of levels of the 10-bit ADC (SLABatMon-v3.ino). -/
def ADCLEVELS : ℕ := 1024

/-- Constant `ADCMAXVALUE` (1023): the maximum 10-bit ADC count (AV33Tests.ino). -/
def ADCMAXVALUE : ℕ := 1023

/-- Constant `ADCSAMPLES` (8): number of conversions averaged by `getADCReading`. -/
def ADCSAMPLES : ℕ := 8

/-- Constant `VDIVRATIO` (3.0): the 100K/50K voltage-divider attenuation ratio. -/
def VDIVRATIO : ℚ := 3

/-- Job 1 execution cycle (ms): read the analog inputs. -/
def JOB1CYCLE : ℕ := 300000

/-- Job 2 execution cycle (ms): send the data to console and LCD. -/
def JOB2CYCLE : ℕ := 300000

/-- Job 9 execution cycle (ms): toggle the heartbeat LED. -/
def JOB9CYCLE : ℕ := 500

/-! ## Sampler: `getADCReading`

`getADCReading` (identical in all three sketches) takes `ADCSAMPLES`
consecutive `analogRead` conversions; the embedding receives that list
of raw conversions as its argument (the throwaway conversion and the
delays have no effect on the returned value and are not modelled).
The float accumulator adds `0.5` per sample; the average gets another
`0.5` added and is then assigned to an `int` (truncation, here of a
nonnegative value, hence `Nat.floor`). -/

/-- Function `getADCReading` from the sketches, as a function of the raw
`analogRead` conversions it consumes; the mapped sum is the final value
of the `adcTotal` accumulator. -/
def getADCReading (convs : List ℕ) : ℕ :=
  Nat.floor ((convs.map (fun c : ℕ => (c : ℚ) + 1 / 2)).sum / (ADCSAMPLES : ℚ) + 1 / 2)

/-! ## Calibrator and VoltageConverter (SLABatMon-v3.ino, Job 1) -/

/-- Assignment `adcOneLvl = AVREF / getADCReading(AVRFVMON)` (volts per count),
as a function of the reference channel's raw sample. -/
def adcOneLvl (refRaw : ℕ) : ℚ := AVREF / refRaw

/-- Assignment `adcRef50v = adcOneLvl * ADCLEVELS`: the derived supply-voltage
estimate. -/
def adcRef50v (refRaw : ℕ) : ℚ := adcOneLvl refRaw * ADCLEVELS

/-- Assignment `adcFactor = adcOneLvl * VDIVRATIO` (SLABatMon-v3.ino line 109). -/
def adcFactor (refRaw : ℕ) : ℚ := adcOneLvl refRaw * VDIVRATIO

/-- Assignment `myVoltsBn = adcFactor * getADCReading(BATnVMON)`: one battery
voltage. -/
def batteryVolts (refRaw batRaw : ℕ) : ℚ := adcFactor refRaw * batRaw

/-- The Job-1 factor assignment of SLABatMon-v3.ino (lines 107/109): the
new factor is derived by the division unconditionally; the previously
held factor is never consulted (the assignment overwrites it), and no
zero check or stale flag exists in the sketch. -/
def job1FactorUpdate (refRaw : ℕ) (prevFactor : ℚ) : ℚ :=
  adcFactor refRaw

/-! ## CRC-8 (`calcCRC8`, SLABatMon-v3.ino lines 241-259) -/

/-- The inner bit loop of `calcCRC8` (lines 248-255): `bits` iterations
of: `sum := (acc XOR byte) AND 1`; `acc := acc >> 1`; if `sum` is set,
`acc := acc XOR 0x8C`; `byte := byte >> 1`. -/
def crc8Bits : ℕ → ℕ → ℕ → ℕ
  | 0, acc, _ => acc
  | bits + 1, acc, b =>
      let sum := (acc ^^^ b) &&& 1
      let acc2 := if sum ≠ 0 then (acc >>> 1) ^^^ 0x8C else acc >>> 1
      crc8Bits bits acc2 (b >>> 1)

/-- One outer-loop pass of `calcCRC8`: process all 8 bits of one byte. -/
def crc8Byte (acc b : ℕ) : ℕ := crc8Bits 8 acc b

/-- Function `calcCRC8` over a NUL-terminated character array, as a function of
the list of its bytes before the terminator (a NUL-terminated string
contains no interior zero byte, so the `while` loop visits exactly
these bytes). -/
def calcCRC8 (dataBuffer : List ℕ) : ℕ := dataBuffer.foldl crc8Byte 0

/-- Modelled from the spec (§4.5), as the independent checksum
implementation the claim compares against: start with accumulator 0;
for each byte, for each of its 8 bits LSB-first, compute
`feedback = (accumulator XOR byte) AND 1`, shift the accumulator right
by 1, XOR the accumulator with 0x8C if feedback is set, and shift the
byte right by 1. -/
def crc8SpecStep (st : ℕ × ℕ) : ℕ × ℕ :=
  let feedback := (st.1 ^^^ st.2) &&& 1
  let acc := st.1 >>> 1
  (if feedback ≠ 0 then acc ^^^ 0x8C else acc, st.2 >>> 1)

/-- Modelled from the spec (§4.5): one byte = 8 LSB-first bit steps. -/
def crc8SpecByte (acc b : ℕ) : ℕ := (crc8SpecStep^[8] (acc, b)).1

/-- Modelled from the spec (§4.5): the checksum of a byte string. -/
def crc8Spec (s : List ℕ) : ℕ := s.foldl crc8SpecByte 0

/-! ## Scheduler (the `loop` of SLABatMon-v3.ino)

Each job keeps an `unsigned long` mark (initialised 0) and fires in a
loop iteration when `timeNow - timeMark >= JOBnCYCLE` evaluated on
`unsigned long` values; firing sets the mark to `timeNow`.  Jobs do not
interact through their marks, so the model is per job, parameterised by
the period `P`.  The loop is modelled as polled at every elapsed
millisecond `t` since reset, with `millis` returning `t % 2 ^ 32`. -/

/-- Value `2 ^ 32`: the modulus of Arduino `unsigned long` arithmetic. -/
def ULMOD : ℕ := 4294967296

/-- Subtraction `timeNow - timeMark` as C computes it on `unsigned long` values. -/
def wrapSub (a b : ℕ) : ℕ := (a % ULMOD + (ULMOD - b % ULMOD)) % ULMOD

/-- The job's `timeMark` before the loop iteration at elapsed time `t`
(marks start at 0; a fire at time `t` stores `millis = t % ULMOD`). -/
def markAt (P : ℕ) : ℕ → ℕ
  | 0 => 0
  | t + 1 => if P ≤ wrapSub (t % ULMOD) (markAt P t) then t % ULMOD else markAt P t

/-- The job fires in the loop iteration at elapsed time `t`:
`timeNow - timeMark >= P` with wraparound subtraction. -/
def firesAt (P t : ℕ) : Prop := P ≤ wrapSub (t % ULMOD) (markAt P t)

instance (P t : ℕ) : Decidable (firesAt P t) := Nat.decLe _ _

/-- Number of fires of a period-`P` job in the window `[a, a + W)`. -/
def fireCount (P a W : ℕ) : ℕ :=
  ((Finset.Ico a (a + W)).filter (fun t => firesAt P t)).card

/-! ## Acquisition/reporting cycle provenance (C7)

Job 1 of SLABatMon-v3.ino recomputes `adcFactor` and all `myVoltsBn`
together; SLABatMon.ino computes `adcFactor` once in `setup` and Job 1
only refreshes the voltages.  The model tags the factor and the
reading set with the acquisition cycle (the value of `adcReadCounter`)
in which each was computed; cycle 0 is "before any acquisition" (for
the v1 factor: the `setup`-time computation).  A Job-2 fire reports
the pair of provenance tags it serialises. -/

structure LoopState where
  timeMark1 : ℕ
  timeMark2 : ℕ
  adcReadCounter : ℕ
  factorCycle : ℕ
  readingCycle : ℕ
  lastReport : Option (ℕ × ℕ)

def loopInit : LoopState := ⟨0, 0, 0, 0, 0, none⟩

/-- One `loop` iteration of SLABatMon-v3.ino at elapsed time `tNow`:
Job 1 (when due) recomputes factor and readings together, stamping both
with the new cycle number; Job 2 (checked after Job 1, when due)
reports whatever provenance the current factor and readings carry. -/
def v3Step (st : LoopState) (tNow : ℕ) : LoopState :=
  let timeNow := tNow % ULMOD
  let st1 :=
    if JOB1CYCLE ≤ wrapSub timeNow st.timeMark1 then
      { st with
        timeMark1 := timeNow
        adcReadCounter := st.adcReadCounter + 1
        factorCycle := st.adcReadCounter + 1
        readingCycle := st.adcReadCounter + 1 }
    else st
  if JOB2CYCLE ≤ wrapSub timeNow st1.timeMark2 then
    { st1 with
      timeMark2 := timeNow
      lastReport := some (st1.factorCycle, st1.readingCycle) }
  else st1

def v3Run (times : List ℕ) : LoopState := times.foldl v3Step loopInit

/-- One `loop` iteration of SLABatMon.ino: identical, except that the
global `adcFactor` was computed once in `setup` (provenance cycle 0)
and Job 1 never recomputes it. -/
def v1Step (st : LoopState) (tNow : ℕ) : LoopState :=
  let timeNow := tNow % ULMOD
  let st1 :=
    if JOB1CYCLE ≤ wrapSub timeNow st.timeMark1 then
      { st with
        timeMark1 := timeNow
        adcReadCounter := st.adcReadCounter + 1
        readingCycle := st.adcReadCounter + 1 }
    else st
  if JOB2CYCLE ≤ wrapSub timeNow st1.timeMark2 then
    { st1 with
      timeMark2 := timeNow
      lastReport := some (st1.factorCycle, st1.readingCycle) }
  else st1

def v1Run (times : List ℕ) : LoopState := times.foldl v1Step loopInit

/-- The same-cycle invariant of the v3 loop. -/
def sameCycleInv (st : LoopState) : Prop :=
  st.factorCycle = st.adcReadCounter ∧
  st.readingCycle = st.adcReadCounter ∧
  ∀ p : ℕ × ℕ, st.lastReport = some p → p.1 = p.2

/-! ## Decimal rendering (`dtostrf`, `Print::print`)

`dtostrf(v, 4, 2, buf)` (used by `sendConsoleData`) and
`Print::print(v, 2)` (used by the LCD path and `Serial.print` of
floats) both render a nonnegative float as its integer part, a point
and exactly two decimal digits, after adding 0.005 and truncating —
i.e. rounding `v * 100` half-up.  For nonnegative values the minimum
width 4 of `dtostrf` never pads ("0.00" is already 4 characters), so
the two functions agree; the sketches only print nonnegative values.
`Serial.println(byte)` renders the plain decimal digits. -/

/-- Decimal digits of `n`, most significant first (empty for 0); the
first argument is structural-recursion fuel, sufficient when `≥ n`. -/
def natDigitsAux : ℕ → ℕ → List ℕ
  | _, 0 => []
  | 0, _ + 1 => []
  | fuel + 1, n + 1 => natDigitsAux fuel ((n + 1) / 10) ++ [(n + 1) % 10]

/-- Decimal digits of `n`, most significant first (empty for 0). -/
def natDigits (n : ℕ) : List ℕ := natDigitsAux n n

/-- Decimal rendering of a natural number (`Serial.println` of a byte
value; integer part of a formatted float). -/
def natStr (n : ℕ) : String :=
  if n = 0 then "0" else String.mk ((natDigits n).map Nat.digitChar)

/-- The two fixed decimal places (tenths, hundredths) of a formatted
float, for `n < 100` the last two digits of the rounded centivalue. -/
def pad2 (n : ℕ) : String :=
  String.mk [Nat.digitChar (n / 10 % 10), Nat.digitChar (n % 10)]

/-- Value `v * 100` rounded half-up (the add-0.005-and-truncate step of both
`dtostrf(v, 4, 2, _)` and `Print::print(v, 2)`), for nonnegative `v`. -/
def roundCenti (v : ℚ) : ℕ := (Int.floor (v * 100 + 1 / 2)).toNat

/-- A nonnegative float formatted with exactly 2 decimal places, as by
`dtostrf(v, 4, 2, buf)` and `Print::print(v, 2)`. -/
def fmt2 (v : ℚ) : String :=
  natStr (roundCenti v / 100) ++ "." ++ pad2 (roundCenti v % 100)

/-- Function `showLCDVoltage` (SLABatMon-v3.ino lines 227-237), as the string it
prints: in-range values get a leading zero below 10 then the
2-decimals rendering; out-of-range values print the sentinel. -/
def showLCDVoltage (bVoltage : ℚ) : String :=
  if 0 ≤ bVoltage ∧ bVoltage < 100 then
    (if bVoltage < 10 then "0" else "") ++ fmt2 bVoltage
  else "--.--"

/-! ## FrameEncoder (`sendConsoleData`, SLABatMon-v3.ino lines 169-187) -/

/-- The bytes of a string, as `calcCRC8` sees the character array. -/
def strBytes (s : String) : List ℕ := s.data.map Char.toNat

/-- The `txBuffer` contents: `sprintf("%s,%s,%s,%s,%s", ...)` over the
five `dtostrf`-formatted voltages. -/
def txBuffer (adcRef33v b1 b2 b3 b4 : ℚ) : String :=
  fmt2 adcRef33v ++ "," ++ fmt2 b1 ++ "," ++ fmt2 b2 ++ "," ++ fmt2 b3 ++ "," ++ fmt2 b4

/-- The frame checksum: `calcCRC8` over the `txBuffer` bytes. -/
def chksumCRC8 (adcRef33v b1 b2 b3 b4 : ℚ) : ℕ :=
  calcCRC8 (strBytes (txBuffer adcRef33v b1 b2 b3 b4))

/-- The full console line: value string, a comma, the checksum in
decimal (`Serial.print(txBuffer); Serial.print(","); Serial.println(chksumCRC8)`). -/
def consoleLine (adcRef33v b1 b2 b3 b4 : ℚ) : String :=
  txBuffer adcRef33v b1 b2 b3 b4 ++ "," ++
    natStr (chksumCRC8 adcRef33v b1 b2 b3 b4)

/-- Comma-separated join, the spec's description of the field layout. -/
def joinComma : List String → String
  | [] => ""
  | [s] => s
  | s :: t :: ts => s ++ "," ++ joinComma (t :: ts)

/-- The spec's "formatted to exactly 2 decimal places": an all-digits
integer part, a point, and exactly two digits. -/
def twoDecimals (s : String) : Prop :=
  ∃ ip d1 d2, s = ip ++ "." ++ String.mk [Nat.digitChar d1, Nat.digitChar d2] ∧
    d1 < 10 ∧ d2 < 10 ∧ ∀ c ∈ ip.data, ∃ d, d < 10 ∧ c = Nat.digitChar d

/-! ## Theorems -/

/-! ### CRC-8 lemmas -/

theorem crc8Bits_eq_iterate (n : ℕ) :
    ∀ acc b, crc8Bits n acc b = (crc8SpecStep^[n] (acc, b)).1 := by
  induction n with
  | zero => intro acc b; rfl
  | succ n ih =>
      intro acc b
      rw [crc8Bits, Function.iterate_succ_apply]
      exact ih _ _

theorem crc8Byte_eq_specByte : crc8Byte = crc8SpecByte := by
  funext acc b
  exact crc8Bits_eq_iterate 8 acc b

theorem crc8Spec_eq_calcCRC8 (s : List ℕ) : crc8Spec s = calcCRC8 s := by
  unfold crc8Spec calcCRC8
  rw [crc8Byte_eq_specByte]

theorem crc8Bits_lt (n : ℕ) :
    ∀ acc b, acc < 256 → crc8Bits n acc b < 256 := by
  induction n with
  | zero => intro acc b h; exact h
  | succ n ih =>
      intro acc b h
      rw [crc8Bits]
      apply ih
      have hshift : acc >>> 1 < 256 := by
        rw [Nat.shiftRight_succ, Nat.shiftRight_zero]
        omega
      by_cases hs : (acc ^^^ b) &&& 1 ≠ 0
      · rw [if_pos hs]
        have hacc : acc >>> 1 < 2 ^ 8 := hshift
        have h8c : (0x8C : ℕ) < 2 ^ 8 := by norm_num
        exact Nat.xor_lt_two_pow hacc h8c
      · rw [if_neg hs]
        exact hshift

theorem calcCRC8_lt (s : List ℕ) : calcCRC8 s < 256 := by
  unfold calcCRC8
  have h : ∀ (l : List ℕ) (acc : ℕ), acc < 256 → l.foldl crc8Byte acc < 256 := by
    intro l
    induction l with
    | nil => intro acc h; exact h
    | cons x xs ih =>
        intro acc h
        exact ih _ (crc8Bits_lt 8 acc x h)
  exact h s 0 (by norm_num)

/-! ### Sampler lemmas -/

theorem sum_map_add_half (convs : List ℕ) :
    (convs.map (fun c : ℕ => (c : ℚ) + 1 / 2)).sum
      = (convs.sum : ℚ) + convs.length * (1 / 2) := by
  induction convs with
  | nil => simp
  | cons x xs ih =>
      rw [List.map_cons, List.sum_cons, ih, List.sum_cons, List.length_cons]
      push_cast
      ring

/-- Closed form of `getADCReading`: the `+0.5` per sample plus the final
`+0.5` amount to adding exactly one whole unit above the floored mean. -/
theorem getADCReading_eq (convs : List ℕ) (h8 : convs.length = ADCSAMPLES) :
    getADCReading convs = convs.sum / ADCSAMPLES + 1 := by
  unfold getADCReading
  rw [sum_map_add_half, h8]
  have hcast : ((convs.sum : ℚ) + (ADCSAMPLES : ℕ) * (1 / 2)) / ((ADCSAMPLES : ℕ) : ℚ) + 1 / 2
      = (((convs.sum + ADCSAMPLES : ℕ) : ℚ)) / ((ADCSAMPLES : ℕ) : ℚ) := by
    have h : (ADCSAMPLES : ℕ) = 8 := rfl
    rw [h]
    push_cast
    ring
  rw [hcast, Nat.floor_div_nat, Nat.floor_natCast]
  have h : (ADCSAMPLES : ℕ) = 8 := rfl
  rw [h]
  omega

theorem getADCReading_pos (convs : List ℕ) (h8 : convs.length = ADCSAMPLES) :
    1 ≤ getADCReading convs := by
  rw [getADCReading_eq convs h8]
  exact Nat.le_add_left 1 _

theorem getADCReading_le (convs : List ℕ) (h8 : convs.length = ADCSAMPLES)
    (hmax : ∀ c ∈ convs, c ≤ ADCMAXVALUE) :
    getADCReading convs ≤ ADCMAXVALUE + 1 := by
  rw [getADCReading_eq convs h8]
  have hsum : convs.sum ≤ convs.length * ADCMAXVALUE := by
    calc convs.sum ≤ convs.length • ADCMAXVALUE :=
          List.sum_le_card_nsmul convs ADCMAXVALUE hmax
    _ = convs.length * ADCMAXVALUE := smul_eq_mul ..
  rw [h8] at hsum
  have h : (ADCSAMPLES : ℕ) = 8 := rfl
  have h2 : (ADCMAXVALUE : ℕ) = 1023 := rfl
  rw [h] at hsum ⊢
  rw [h2] at hsum ⊢
  omega

/-! ## Claims C1, C3, C5 -/

/-- C1: the calibration step of SLABatMon-v3.ino (and the setup of
SLABatMon.ino) performs `AVREF / referenceRawSample` with no zero
guard: at a zero reference raw sample the division is still performed
(in this `ℚ` embedding it returns the zero-division convention value 0;
in the C float code it is a division by zero) and the previously valid
factor (here 1) is overwritten rather than reused; the sketch has no
stale flag at all.  This refutes the guarded behaviour the claim
describes and confirms the divergence is in the code. -/
theorem c1_division_unguarded :
    job1FactorUpdate 0 1 ≠ 1 ∧ job1FactorUpdate 0 1 = 0 := by
  unfold job1FactorUpdate adcFactor adcOneLvl AVREF VDIVRATIO
  norm_num

/-- C3: for every reference raw sample `r > 0` the factor is
`AVREF / r` volts per count, the supply estimate is
`factor * ADCLEVELS`, each battery voltage is
`factor * rawSample * VDIVRATIO`, and on the end-to-end scenario
(`r = 682`, battery raw 900, ratio 3.0) the factor is 0.004839 and the
voltage 13.06 within the stated tolerances. -/
theorem c3_calibration (r : ℕ) (hr : 0 < r) :
    adcOneLvl r = AVREF / r ∧
    adcRef50v r = adcOneLvl r * ADCLEVELS ∧
    (∀ raw : ℕ, batteryVolts r raw = adcOneLvl r * raw * VDIVRATIO) ∧
    |adcOneLvl 682 - 4839 / 1000000| ≤ 1 / 1000000 ∧
    |batteryVolts 682 900 - 1306 / 100| ≤ 1 / 100 := by
  refine ⟨rfl, rfl, ?_, ?_, ?_⟩
  · intro raw
    unfold batteryVolts adcFactor
    ring
  · unfold adcOneLvl AVREF
    rw [abs_le]
    constructor <;> norm_num
  · unfold batteryVolts adcFactor adcOneLvl AVREF VDIVRATIO
    rw [abs_le]
    constructor <;> norm_num

theorem c3_calibration_witness :
    0 < 682 ∧ adcRef50v 682 = adcOneLvl 682 * ADCLEVELS :=
  ⟨by decide, (c3_calibration 682 (by decide)).2.1⟩

/-- C5 (counterexample): all eight conversions at the upper rail 1023
form a valid input (each in `[0, ADC_MAX]`), yet `getADCReading`
returns 1024 = `ADC_MAX + 1`, outside the claimed range `[0, ADC_MAX]`;
likewise all conversions at the lower rail 0 give 1, not the claimed
rail reading 0. -/
theorem c5_rail_counterexample :
    (List.replicate 8 1023).length = ADCSAMPLES ∧
    (∀ c ∈ List.replicate 8 1023, c ≤ ADCMAXVALUE) ∧
    getADCReading (List.replicate 8 1023) = ADCMAXVALUE + 1 ∧
    ¬ getADCReading (List.replicate 8 1023) ≤ ADCMAXVALUE ∧
    getADCReading (List.replicate 8 0) = 1 := by
  have h1 : getADCReading (List.replicate 8 1023) = 1024 := by
    rw [getADCReading_eq _ (by rfl)]
    simp [List.sum_replicate]
    decide
  have h0 : getADCReading (List.replicate 8 0) = 1 := by
    rw [getADCReading_eq _ (by rfl)]
    simp [List.sum_replicate]
  refine ⟨rfl, by decide, ?_, ?_, h0⟩
  · rw [h1]; rfl
  · rw [h1]; decide

/-- C5 (amended): the returned value equals the truncation of
`(sum of (conversion + 0.5)) / N + 0.5`, which simplifies to
`sum / N + 1`, and lies in `[1, ADC_MAX + 1]` (not `[0, ADC_MAX]`); a
channel stuck at a rail yields exactly 1 or exactly `ADC_MAX + 1`. -/
theorem c5_sampler_amended (convs : List ℕ) (h8 : convs.length = ADCSAMPLES)
    (hmax : ∀ c ∈ convs, c ≤ ADCMAXVALUE) :
    getADCReading convs
        = Nat.floor ((convs.map (fun c : ℕ => (c : ℚ) + 1 / 2)).sum / (ADCSAMPLES : ℚ) + 1 / 2) ∧
    getADCReading convs = convs.sum / ADCSAMPLES + 1 ∧
    1 ≤ getADCReading convs ∧
    getADCReading convs ≤ ADCMAXVALUE + 1 ∧
    getADCReading (List.replicate ADCSAMPLES 0) = 1 ∧
    getADCReading (List.replicate ADCSAMPLES ADCMAXVALUE) = ADCMAXVALUE + 1 := by
  refine ⟨rfl, getADCReading_eq convs h8, getADCReading_pos convs h8,
    getADCReading_le convs h8 hmax, ?_, ?_⟩
  · rw [getADCReading_eq _ (by rfl)]
    simp [List.sum_replicate]
  · rw [getADCReading_eq _ (by rfl)]
    simp [List.sum_replicate]
    rfl

theorem c5_sampler_amended_witness :
    (List.replicate 8 682).length = ADCSAMPLES ∧
    (∀ c ∈ List.replicate 8 682, c ≤ ADCMAXVALUE) ∧
    getADCReading (List.replicate 8 682) = (List.replicate 8 682).sum / ADCSAMPLES + 1 :=
  ⟨by decide, by decide, (c5_sampler_amended _ (by decide) (by decide)).2.1⟩

/-! ### Scheduler lemmas -/

theorem wrapSub_eq (a b : ℕ) (hb : b ≤ a) (hd : a - b < ULMOD) :
    wrapSub (a % ULMOD) (b % ULMOD) = a - b := by
  unfold wrapSub ULMOD
  unfold ULMOD at hd
  omega

/-- Closed form of the mark: after the iteration at time `t` the mark
holds (the clock value of) the largest multiple of `P` that is `≤ t`. -/
theorem markAt_closed (P : ℕ) (hP : 0 < P) (hU : P < ULMOD) :
    ∀ t, markAt P (t + 1) = (P * (t / P)) % ULMOD := by
  intro t
  induction t with
  | zero =>
      simp only [markAt]
      have hW : wrapSub (0 % ULMOD) 0 = 0 := by
        unfold wrapSub ULMOD
        omega
      rw [hW, if_neg (by omega)]
      simp
  | succ t ih =>
      have hqr := Nat.div_add_mod t P
      have hrlt : t % P < P := Nat.mod_lt _ hP
      have hU' : P < 4294967296 := hU
      have hW : wrapSub ((t + 1) % ULMOD) (markAt P (t + 1)) = t % P + 1 := by
        rw [ih, wrapSub_eq (t + 1) (P * (t / P)) (by omega) ?hd]
        · omega
        case hd =>
          show t + 1 - P * (t / P) < ULMOD
          unfold ULMOD
          omega
      conv_lhs => rw [markAt]
      rw [hW, ih]
      by_cases hdvd : P ∣ t + 1
      · rw [if_pos ?hc]
        case hc =>
          obtain ⟨k, hk⟩ := hdvd
          cases k with
          | zero => omega
          | succ j =>
              have hmod : t % P = P - 1 := by
                have ht : t = P * j + (P - 1) := by
                  have : P * (j + 1) = P * j + P := by ring
                  omega
                rw [ht, Nat.mul_add_mod]
                exact Nat.mod_eq_of_lt (by omega)
              omega
        have hmul : P * ((t + 1) / P) = t + 1 := Nat.mul_div_cancel' hdvd
        rw [hmul]
      · rw [if_neg ?hnc]
        case hnc =>
          intro hge
          have hmod : t % P = P - 1 := by omega
          apply hdvd
          refine ⟨t / P + 1, ?_⟩
          have : P * (t / P + 1) = P * (t / P) + P := by ring
          omega
        rw [Nat.succ_div, if_neg hdvd, Nat.add_zero]

/-- A job fires exactly at the positive multiples of its period. -/
theorem firesAt_iff (P : ℕ) (hP : 0 < P) (hU : P < ULMOD) (t : ℕ) :
    firesAt P t ↔ (P ∣ t ∧ t ≠ 0) := by
  cases t with
  | zero =>
      unfold firesAt
      simp only [markAt]
      have hW : wrapSub (0 % ULMOD) 0 = 0 := by
        unfold wrapSub ULMOD
        omega
      rw [hW]
      constructor
      · intro h; omega
      · rintro ⟨-, h⟩; exact absurd rfl h
  | succ t =>
      unfold firesAt
      have hqr := Nat.div_add_mod t P
      have hrlt : t % P < P := Nat.mod_lt _ hP
      have hU' : P < 4294967296 := hU
      have hW : wrapSub ((t + 1) % ULMOD) (markAt P (t + 1)) = t % P + 1 := by
        rw [markAt_closed P hP hU, wrapSub_eq (t + 1) (P * (t / P)) (by omega) ?hd]
        · omega
        case hd =>
          show t + 1 - P * (t / P) < ULMOD
          unfold ULMOD
          omega
      rw [hW]
      constructor
      · intro hge
        refine ⟨?_, Nat.succ_ne_zero t⟩
        have hmod : t % P = P - 1 := by omega
        refine ⟨t / P + 1, ?_⟩
        have : P * (t / P + 1) = P * (t / P) + P := by ring
        omega
      · rintro ⟨⟨k, hk⟩, -⟩
        cases k with
        | zero => omega
        | succ j =>
            have hmod : t % P = P - 1 := by
              have ht : t = P * j + (P - 1) := by
                have : P * (j + 1) = P * j + P := by ring
                omega
              rw [ht, Nat.mul_add_mod]
              exact Nat.mod_eq_of_lt (by omega)
            omega

/-- Any half-open window of length `P` contains exactly one multiple
of `P`. -/
theorem card_multiples_window (P : ℕ) (hP : 0 < P) (s : ℕ) :
    ((Finset.Ico s (s + P)).filter (fun t => P ∣ t)).card = 1 := by
  rw [Finset.card_eq_one]
  refine ⟨P * ((s + P - 1) / P), ?_⟩
  have hqr := Nat.div_add_mod (s + P - 1) P
  have hrlt : (s + P - 1) % P < P := Nat.mod_lt _ hP
  have hms : s ≤ P * ((s + P - 1) / P) := by omega
  have hml : P * ((s + P - 1) / P) < s + P := by omega
  ext t
  simp only [Finset.mem_filter, Finset.mem_Ico, Finset.mem_singleton]
  constructor
  · rintro ⟨⟨hts, htl⟩, hdvd⟩
    have hdm : P ∣ P * ((s + P - 1) / P) := Dvd.intro _ rfl
    rcases Nat.le_total t (P * ((s + P - 1) / P)) with hle | hle
    · have hd : P ∣ P * ((s + P - 1) / P) - t := Nat.dvd_sub' hdm hdvd
      have : P * ((s + P - 1) / P) - t = 0 :=
        Nat.eq_zero_of_dvd_of_lt hd (by omega)
      omega
    · have hd : P ∣ t - P * ((s + P - 1) / P) := Nat.dvd_sub' hdvd hdm
      have : t - P * ((s + P - 1) / P) = 0 :=
        Nat.eq_zero_of_dvd_of_lt hd (by omega)
      omega
  · intro ht
    subst ht
    exact ⟨⟨hms, hml⟩, Dvd.intro _ rfl⟩

/-- Count of multiples of `P` in a window of length `W`: between
`W / P` and `W / P + 1`. -/
theorem card_multiples_Ico (P : ℕ) (hP : 0 < P) :
    ∀ W a, W / P ≤ ((Finset.Ico a (a + W)).filter (fun t => P ∣ t)).card ∧
      ((Finset.Ico a (a + W)).filter (fun t => P ∣ t)).card ≤ W / P + 1 := by
  intro W
  induction W using Nat.strong_induction_on with
  | _ W ih =>
      intro a
      by_cases hW : W < P
      · have hsub : (Finset.Ico a (a + W)).filter (fun t => P ∣ t) ⊆
            (Finset.Ico a (a + P)).filter (fun t => P ∣ t) :=
          Finset.filter_subset_filter _ (Finset.Ico_subset_Ico le_rfl (by omega))
        have hle := Finset.card_le_card hsub
        rw [card_multiples_window P hP a] at hle
        have hdiv : W / P = 0 := Nat.div_eq_of_lt hW
        omega
      · push_neg at hW
        have hsplit : Finset.Ico a (a + W) =
            Finset.Ico a (a + P) ∪ Finset.Ico (a + P) (a + W) :=
          (Finset.Ico_union_Ico_eq_Ico (by omega) (by omega)).symm
        have hdisj : Disjoint (Finset.Ico a (a + P)) (Finset.Ico (a + P) (a + W)) :=
          Finset.Ico_disjoint_Ico_consecutive a (a + P) (a + W)
        rw [hsplit, Finset.filter_union,
          Finset.card_union_of_disjoint (Finset.disjoint_filter_filter hdisj),
          card_multiples_window P hP a]
        have hrec := ih (W - P) (by omega) (a + P)
        have harew : a + P + (W - P) = a + W := by omega
        rw [harew] at hrec
        have hdiv : W / P = (W - P) / P + 1 := Nat.div_eq_sub_div hP hW
        omega

/-- The fire count differs from the count of multiples of `P` in the
window by at most the excluded time 0. -/
theorem fireCount_bounds (P : ℕ) (hP : 0 < P) (hU : P < ULMOD) (a W : ℕ) :
    W / P ≤ fireCount P a W + 1 ∧ fireCount P a W ≤ W / P + 1 := by
  have hdvd := card_multiples_Ico P hP W a
  have hsub : (Finset.Ico a (a + W)).filter (fun t => firesAt P t) ⊆
      (Finset.Ico a (a + W)).filter (fun t => P ∣ t) := by
    intro t ht
    simp only [Finset.mem_filter] at ht ⊢
    exact ⟨ht.1, ((firesAt_iff P hP hU t).mp ht.2).1⟩
  have hsup : (Finset.Ico a (a + W)).filter (fun t => P ∣ t) ⊆
      insert 0 ((Finset.Ico a (a + W)).filter (fun t => firesAt P t)) := by
    intro t ht
    simp only [Finset.mem_filter] at ht
    by_cases ht0 : t = 0
    · simp [ht0]
    · apply Finset.mem_insert_of_mem
      simp only [Finset.mem_filter]
      exact ⟨ht.1, (firesAt_iff P hP hU t).mpr ⟨ht.2, ht0⟩⟩
  have h1 := Finset.card_le_card hsub
  have h2 := Finset.card_le_card hsup
  have h3 := Finset.card_insert_le 0 ((Finset.Ico a (a + W)).filter (fun t => firesAt P t))
  unfold fireCount
  omega

/-! ## Claims C6 and C10 -/

/-- C6: per job of period `P` (0 < `P` < 2^32), with the loop polled
every millisecond: (1) the job fires exactly when
`now - lastFire >= P` under wraparound subtraction; (2) firing sets the
mark to `now`, (3) not firing leaves it unchanged (so at most one fire
per iteration, and never `lastFire + P`); (4) two distinct fires are
at least one period apart; (5) over any window of length `W` the job
fires `W / P` times within `±1`. -/
theorem c6_scheduler (P : ℕ) (hP : 0 < P) (hU : P < ULMOD) :
    (∀ t, firesAt P t ↔ P ≤ wrapSub (t % ULMOD) (markAt P t)) ∧
    (∀ t, firesAt P t → markAt P (t + 1) = t % ULMOD) ∧
    (∀ t, ¬ firesAt P t → markAt P (t + 1) = markAt P t) ∧
    (∀ t1 t2, firesAt P t1 → firesAt P t2 → t1 < t2 → P ≤ t2 - t1) ∧
    (∀ a W, W / P ≤ fireCount P a W + 1 ∧ fireCount P a W ≤ W / P + 1) := by
  refine ⟨fun t => Iff.rfl, ?_, ?_, ?_, fun a W => fireCount_bounds P hP hU a W⟩
  · intro t ht
    have ht' : P ≤ wrapSub (t % ULMOD) (markAt P t) := ht
    simp only [markAt]
    rw [if_pos ht']
  · intro t ht
    have ht' : ¬ P ≤ wrapSub (t % ULMOD) (markAt P t) := ht
    simp only [markAt]
    rw [if_neg ht']
  · intro t1 t2 h1 h2 hlt
    obtain ⟨hd1, hn1⟩ := (firesAt_iff P hP hU t1).mp h1
    obtain ⟨hd2, -⟩ := (firesAt_iff P hP hU t2).mp h2
    have hd : P ∣ t2 - t1 := Nat.dvd_sub' hd2 hd1
    exact Nat.le_of_dvd (by omega) hd

theorem c6_scheduler_witness :
    0 < 5 ∧ markAt 5 11 = 10 % ULMOD ∧
    (17 / 5 ≤ fireCount 5 3 17 + 1 ∧ fireCount 5 3 17 ≤ 17 / 5 + 1) :=
  ⟨by decide,
   (c6_scheduler 5 (by decide) (by decide)).2.1 10 (by decide),
   (c6_scheduler 5 (by decide) (by decide)).2.2.2.2 3 17⟩

/-- C10: every job's mark starts at 0, so no job fires before its full
period has elapsed since reset: no acquisition (Job 1) and no telemetry
data line (Job 2) during the first `JOB1CYCLE` = 300000 ms, and no
heartbeat toggle (Job 9) before 500 ms. -/
theorem c10_quiet_startup (t : ℕ) :
    (t < JOB1CYCLE → ¬ firesAt JOB1CYCLE t) ∧
    (t < JOB2CYCLE → ¬ firesAt JOB2CYCLE t) ∧
    (t < JOB9CYCLE → ¬ firesAt JOB9CYCLE t) := by
  have key : ∀ P, 0 < P → P < ULMOD → t < P → ¬ firesAt P t := by
    intro P hP hU ht hfire
    obtain ⟨hdvd, hne⟩ := (firesAt_iff P hP hU t).mp hfire
    exact absurd (Nat.le_of_dvd (Nat.pos_of_ne_zero hne) hdvd) (by omega)
  exact ⟨key _ (by decide) (by decide), key _ (by decide) (by decide),
    key _ (by decide) (by decide)⟩

theorem c10_quiet_startup_witness :
    299999 < JOB1CYCLE ∧ ¬ firesAt JOB1CYCLE 299999 ∧
    499 < JOB9CYCLE ∧ ¬ firesAt JOB9CYCLE 499 :=
  ⟨by decide, (c10_quiet_startup 299999).1 (by decide),
   by decide, (c10_quiet_startup 499).2.2 (by decide)⟩

theorem v3Step_inv (st : LoopState) (tNow : ℕ) (h : sameCycleInv st) :
    sameCycleInv (v3Step st tNow) := by
  obtain ⟨h1, h2, h3⟩ := h
  unfold v3Step sameCycleInv
  dsimp only
  split
  · split
    · exact ⟨rfl, rfl, fun p hp => by
        simp only [Option.some.injEq] at hp
        subst hp
        rfl⟩
    · exact ⟨rfl, rfl, h3⟩
  · split
    · exact ⟨h1, h2, fun p hp => by
        simp only [Option.some.injEq] at hp
        subst hp
        simp [h1, h2]⟩
    · exact ⟨h1, h2, h3⟩

theorem v3Run_inv (times : List ℕ) : sameCycleInv (v3Run times) := by
  unfold v3Run
  have h : ∀ (ts : List ℕ) (st : LoopState), sameCycleInv st →
      sameCycleInv (ts.foldl v3Step st) := by
    intro ts
    induction ts with
    | nil => intro st h; exact h
    | cons x xs ih => intro st h; exact ih _ (v3Step_inv st x h)
  exact h times loopInit ⟨rfl, rfl, fun p hp => by cases hp⟩

/-! ## Claim C7 -/

/-- C7 (counterexample, SLABatMon.ino): polling the v1 loop at 300000
and 600000 ms, the second report pairs the reading set of acquisition
cycle 2 with the calibration factor of cycle 0 (computed in `setup`):
the factor is cached across cycles, and a stale factor is combined
with fresh raw samples, refuting the claim for this sketch. -/
theorem c7_v1_stale_factor :
    (v1Run [300000, 600000]).readingCycle = 2 ∧
    (v1Run [300000, 600000]).factorCycle = 0 ∧
    (v1Run [300000, 600000]).lastReport = some (0, 2) ∧
    (v1Run [300000, 600000]).readingCycle ≠ (v1Run [300000, 600000]).factorCycle := by
  refine ⟨by decide, by decide, by decide, by decide⟩

/-- C7 (amended): in SLABatMon-v3.ino the invariant holds — after any
sequence of loop iterations the factor and the reading set both carry
the current acquisition cycle, and every emitted report pairs a factor
and readings of one and the same cycle.  (SLABatMon.ino violates the
claim: see the counterexample.) -/
theorem c7_v3_same_cycle (times : List ℕ) :
    (v3Run times).factorCycle = (v3Run times).adcReadCounter ∧
    (v3Run times).readingCycle = (v3Run times).adcReadCounter ∧
    ∀ p : ℕ × ℕ, (v3Run times).lastReport = some p → p.1 = p.2 :=
  v3Run_inv times

theorem c7_v3_same_cycle_witness :
    (v3Run [300000]).lastReport = some (1, 1) ∧ (1, 1).1 = (1, 1).2 :=
  ⟨by decide, (c7_v3_same_cycle [300000]).2.2 (1, 1) (by decide)⟩

/-! ### Digit-rendering lemmas -/

theorem natDigitsAux_zero (fuel : ℕ) : natDigitsAux fuel 0 = [] := by
  cases fuel <;> rfl

theorem natDigitsAux_fuel : ∀ n f₁ f₂, n ≤ f₁ → n ≤ f₂ →
    natDigitsAux f₁ n = natDigitsAux f₂ n := by
  intro n
  induction n using Nat.strong_induction_on with
  | _ n ih =>
      intro f₁ f₂ h₁ h₂
      cases n with
      | zero => rw [natDigitsAux_zero, natDigitsAux_zero]
      | succ m =>
          cases f₁ with
          | zero => omega
          | succ g₁ =>
              cases f₂ with
              | zero => omega
              | succ g₂ =>
                  show natDigitsAux g₁ ((m + 1) / 10) ++ [(m + 1) % 10]
                      = natDigitsAux g₂ ((m + 1) / 10) ++ [(m + 1) % 10]
                  have hlt : (m + 1) / 10 < m + 1 := Nat.div_lt_self (by omega) (by omega)
                  rw [ih ((m + 1) / 10) hlt g₁ g₂ (by omega) (by omega)]

theorem natDigitsAux_digits : ∀ fuel n d, d ∈ natDigitsAux fuel n → d < 10 := by
  intro fuel
  induction fuel with
  | zero =>
      intro n d hd
      cases n with
      | zero => rw [natDigitsAux_zero] at hd; cases hd
      | succ m => cases hd
  | succ g ih =>
      intro n d hd
      cases n with
      | zero => rw [natDigitsAux_zero] at hd; cases hd
      | succ m =>
          rcases List.mem_append.mp hd with h | h
          · exact ih _ _ h
          · rcases List.mem_singleton.mp h with rfl
            exact Nat.mod_lt _ (by omega)

theorem natDigits_digits (n d : ℕ) (hd : d ∈ natDigits n) : d < 10 :=
  natDigitsAux_digits n n d hd

theorem natDigits_single (n : ℕ) (h1 : 1 ≤ n) (h2 : n < 10) :
    natDigits n = [n] := by
  cases n with
  | zero => omega
  | succ m =>
      show natDigitsAux m ((m + 1) / 10) ++ [(m + 1) % 10] = [m + 1]
      rw [Nat.div_eq_of_lt h2, natDigitsAux_zero, Nat.mod_eq_of_lt h2]
      rfl

theorem natDigits_double (n : ℕ) (h1 : 10 ≤ n) (h2 : n < 100) :
    natDigits n = [n / 10, n % 10] := by
  cases n with
  | zero => omega
  | succ m =>
      show natDigitsAux m ((m + 1) / 10) ++ [(m + 1) % 10] = [(m + 1) / 10, (m + 1) % 10]
      have hq1 : 1 ≤ (m + 1) / 10 := Nat.one_le_div_iff (by omega) |>.mpr h1
      have hq2 : (m + 1) / 10 < 10 := Nat.div_lt_of_lt_mul (by omega)
      have hqm : (m + 1) / 10 ≤ m := by omega
      rw [natDigitsAux_fuel ((m + 1) / 10) m ((m + 1) / 10) hqm le_rfl]
      rw [show natDigitsAux ((m + 1) / 10) ((m + 1) / 10) = natDigits ((m + 1) / 10) from rfl]
      rw [natDigits_single _ hq1 hq2]
      rfl

theorem natStr_length_one (n : ℕ) (h : n < 10) : (natStr n).length = 1 := by
  by_cases h0 : n = 0
  · subst h0; rfl
  · unfold natStr
    rw [if_neg h0]
    show ((natDigits n).map Nat.digitChar).length = 1
    rw [natDigits_single n (by omega) h]
    rfl

theorem natStr_length_two (n : ℕ) (h1 : 10 ≤ n) (h2 : n < 100) :
    (natStr n).length = 2 := by
  unfold natStr
  rw [if_neg (by omega)]
  show ((natDigits n).map Nat.digitChar).length = 2
  rw [natDigits_double n h1 h2]
  rfl

/-- Every character a digit renderer emits is one of '0'-'9'. -/
theorem digitChar_good (d : ℕ) (h : d < 10) :
    (Nat.digitChar d).isDigit = true ∧ Nat.digitChar d ≠ ',' ∧
    Nat.digitChar d ≠ '.' ∧ (Nat.digitChar d).toNat ≠ 0 := by
  interval_cases d <;> exact ⟨rfl, by decide, by decide, by decide⟩

theorem natStr_chars (n : ℕ) :
    ∀ c ∈ (natStr n).data, ∃ d, d < 10 ∧ c = Nat.digitChar d := by
  intro c hc
  unfold natStr at hc
  by_cases h0 : n = 0
  · rw [if_pos h0] at hc
    rcases List.mem_singleton.mp hc with rfl
    exact ⟨0, by omega, rfl⟩
  · rw [if_neg h0] at hc
    rcases List.mem_map.mp hc with ⟨d, hd, rfl⟩
    exact ⟨d, natDigits_digits n d hd, rfl⟩

theorem pad2_chars (n : ℕ) :
    ∀ c ∈ (pad2 n).data, ∃ d, d < 10 ∧ c = Nat.digitChar d := by
  intro c hc
  have hc' : c ∈ [Nat.digitChar (n / 10 % 10), Nat.digitChar (n % 10)] := hc
  simp only [List.mem_cons, List.mem_singleton, List.not_mem_nil, or_false] at hc'
  rcases hc' with rfl | rfl
  · exact ⟨n / 10 % 10, Nat.mod_lt _ (by omega), rfl⟩
  · exact ⟨n % 10, Nat.mod_lt _ (by omega), rfl⟩

theorem pad2_length (n : ℕ) : (pad2 n).length = 2 := rfl

theorem fmt2_chars (v : ℚ) :
    ∀ c ∈ (fmt2 v).data, c = '.' ∨ ∃ d, d < 10 ∧ c = Nat.digitChar d := by
  intro c hc
  unfold fmt2 at hc
  rw [String.data_append, String.data_append] at hc
  rcases List.mem_append.mp hc with h | h
  · rcases List.mem_append.mp h with h' | h'
    · exact Or.inr (natStr_chars _ c h')
    · rcases List.mem_singleton.mp h' with rfl
      exact Or.inl rfl
  · exact Or.inr (pad2_chars _ c h)

theorem fmt2_length (v : ℚ) :
    (fmt2 v).length = (natStr (roundCenti v / 100)).length + 3 := by
  unfold fmt2
  rw [String.length_append, String.length_append, pad2_length]
  rfl

/-- The last character of a 2-decimals field is a digit. -/
theorem fmt2_getLast (v : ℚ) :
    ∃ d, d < 10 ∧ (fmt2 v).data.getLast? = some (Nat.digitChar d) := by
  refine ⟨roundCenti v % 100 % 10, Nat.mod_lt _ (by omega), ?_⟩
  unfold fmt2
  rw [String.data_append, List.getLast?_append]
  rfl

theorem fmt2_twoDecimals (v : ℚ) : twoDecimals (fmt2 v) :=
  ⟨natStr (roundCenti v / 100), roundCenti v % 100 / 10 % 10, roundCenti v % 100 % 10,
    rfl, Nat.mod_lt _ (by omega), Nat.mod_lt _ (by omega), natStr_chars _⟩

theorem txBuffer_chars (r b1 b2 b3 b4 : ℚ) :
    ∀ c ∈ (txBuffer r b1 b2 b3 b4).data,
      c = ',' ∨ c = '.' ∨ ∃ d, d < 10 ∧ c = Nat.digitChar d := by
  intro c hc
  unfold txBuffer at hc
  simp only [String.data_append, List.mem_append] at hc
  rcases hc with ((((((((h | h) | h) | h) | h) | h) | h) | h) | h)
  all_goals first
    | exact Or.inr (fmt2_chars _ c h)
    | (rcases List.mem_singleton.mp h with rfl; exact Or.inl rfl)

theorem txBuffer_getLast (r b1 b2 b3 b4 : ℚ) :
    ∃ d, d < 10 ∧
      (txBuffer r b1 b2 b3 b4).data.getLast? = some (Nat.digitChar d) := by
  obtain ⟨d, hd, hlast⟩ := fmt2_getLast b4
  refine ⟨d, hd, ?_⟩
  unfold txBuffer
  rw [String.data_append, List.getLast?_append, hlast]
  rfl

/-! ## Claims C2, C4, C8, C9 -/

/-- C2: the sketch checksum `calcCRC8` coincides, on every byte string,
with the independent implementation of the algorithm as the spec
states it; its value is in 0-255; and the checksum the frame encoder
embeds is exactly that algorithm applied to the frame's value
string. -/
theorem c2_crc8_roundtrip (bytes : List ℕ) (h : ∀ b ∈ bytes, b ≠ 0 ∧ b < 256) :
    calcCRC8 bytes = crc8Spec bytes ∧
    calcCRC8 bytes < 256 ∧
    ∀ r b1 b2 b3 b4 : ℚ, chksumCRC8 r b1 b2 b3 b4 =
      crc8Spec (strBytes (txBuffer r b1 b2 b3 b4)) := by
  refine ⟨(crc8Spec_eq_calcCRC8 bytes).symm, calcCRC8_lt bytes, ?_⟩
  intro r b1 b2 b3 b4
  rw [crc8Spec_eq_calcCRC8]
  rfl

set_option maxRecDepth 10000 in
theorem c2_crc8_roundtrip_witness :
    (∀ b ∈ [49, 46, 48, 48], b ≠ 0 ∧ b < 256) ∧
    calcCRC8 [49, 46, 48, 48] = crc8Spec [49, 46, 48, 48] ∧
    calcCRC8 [49, 46, 48, 48] = 52 :=
  ⟨by decide, (c2_crc8_roundtrip [49, 46, 48, 48] (by decide)).1, by decide⟩

/-- C4: the telemetry line is the comma-join of the five 2-decimal
fields in the order [ref, b1, b2, b3, b4], then a comma and the
checksum in decimal (a value below 256); the checksum is computed over
exactly the bytes of the value string, which ends in a digit (no
trailing comma) and contains no NUL byte. -/
theorem c4_frame_format (r b1 b2 b3 b4 : ℚ)
    (hr : 0 ≤ r) (h1 : 0 ≤ b1) (h2 : 0 ≤ b2) (h3 : 0 ≤ b3) (h4 : 0 ≤ b4) :
    consoleLine r b1 b2 b3 b4 =
      joinComma [fmt2 r, fmt2 b1, fmt2 b2, fmt2 b3, fmt2 b4] ++ "," ++
        natStr (chksumCRC8 r b1 b2 b3 b4) ∧
    chksumCRC8 r b1 b2 b3 b4 = calcCRC8 (strBytes (txBuffer r b1 b2 b3 b4)) ∧
    chksumCRC8 r b1 b2 b3 b4 < 256 ∧
    (∀ s ∈ [fmt2 r, fmt2 b1, fmt2 b2, fmt2 b3, fmt2 b4], twoDecimals s) ∧
    (∀ c, (txBuffer r b1 b2 b3 b4).data.getLast? = some c → c ≠ ',') ∧
    (∀ b ∈ strBytes (txBuffer r b1 b2 b3 b4), b ≠ 0) := by
  refine ⟨?_, rfl, calcCRC8_lt _, ?_, ?_, ?_⟩
  · have hjoin : txBuffer r b1 b2 b3 b4 =
        joinComma [fmt2 r, fmt2 b1, fmt2 b2, fmt2 b3, fmt2 b4] := by
      apply String.ext
      simp [txBuffer, joinComma, String.data_append, List.append_assoc]
    unfold consoleLine
    rw [hjoin]
  · intro s hs
    simp only [List.mem_cons, List.not_mem_nil, or_false] at hs
    rcases hs with rfl | rfl | rfl | rfl | rfl <;> exact fmt2_twoDecimals _
  · intro c hcl
    obtain ⟨d, hd, hlast⟩ := txBuffer_getLast r b1 b2 b3 b4
    rw [hlast] at hcl
    cases hcl
    exact (digitChar_good d hd).2.1
  · intro b hb
    unfold strBytes at hb
    rcases List.mem_map.mp hb with ⟨c, hc, rfl⟩
    rcases txBuffer_chars r b1 b2 b3 b4 c hc with rfl | rfl | ⟨d, hd, rfl⟩
    · decide
    · decide
    · exact (digitChar_good d hd).2.2.2

theorem c4_frame_format_witness :
    (0:ℚ) ≤ 1 ∧ chksumCRC8 1 1 1 1 1 < 256 :=
  ⟨by norm_num,
   (c4_frame_format 1 1 1 1 1 (by norm_num) (by norm_num) (by norm_num)
     (by norm_num) (by norm_num)).2.2.1⟩

/-- C8 (counterexample): 9.999 is in `[0, 100)` but rounds to 10.00 at
two decimals, so `showLCDVoltage` prints the six-character "010.00",
not a five-character `NN.NN` field. -/
theorem c8_boundary_counterexample :
    (0:ℚ) ≤ 9999 / 1000 ∧ (9999 / 1000 : ℚ) < 100 ∧
    showLCDVoltage (9999 / 1000) = "010.00" ∧
    (showLCDVoltage (9999 / 1000)).length ≠ 5 := by
  have hf : (Int.floor ((9999:ℚ) / 1000 * 100 + 1 / 2)) = 1000 := by norm_num
  have hrc : roundCenti (9999 / 1000) = 1000 := by
    unfold roundCenti
    rw [hf]
    rfl
  have hshow : showLCDVoltage (9999 / 1000) = "0" ++ fmt2 (9999 / 1000) := by
    unfold showLCDVoltage
    rw [if_pos ⟨by norm_num, by norm_num⟩, if_pos (by norm_num)]
  have hfmt : fmt2 (9999 / 1000) = "10.00" := by
    unfold fmt2
    rw [hrc]
    decide
  refine ⟨by norm_num, by norm_num, ?_, ?_⟩
  · rw [hshow, hfmt]
    decide
  · rw [hshow, hfmt]
    decide

/-- C8 (amended): negative or `≥ 100` values (in particular -1 and 150)
render as the sentinel "--.--"; values in `[0, 100)` render as a
five-character `NN.NN` field except when the two-decimal rounding
carries the value into the next decade: every value of `[9.995, 10)`
(that is, `0 ≤ v < 10` with `v * 100 + 1/2 ≥ 1000`) renders as the
six-character "010.00", and every value of `[99.995, 100)` as the
six-character "100.00". -/
theorem c8_display_amended (v : ℚ) :
    (¬ (0 ≤ v ∧ v < 100) → showLCDVoltage v = "--.--") ∧
    showLCDVoltage (-1) = "--.--" ∧
    showLCDVoltage 150 = "--.--" ∧
    (0 ≤ v → v * 100 + 1 / 2 < 1000 → (showLCDVoltage v).length = 5) ∧
    (10 ≤ v → v * 100 + 1 / 2 < 10000 → (showLCDVoltage v).length = 5) ∧
    (0 ≤ v → v < 10 → 1000 ≤ v * 100 + 1 / 2 → showLCDVoltage v = "010.00") ∧
    (v < 100 → 10000 ≤ v * 100 + 1 / 2 → showLCDVoltage v = "100.00") := by
  refine ⟨?_, ?_, ?_, ?_, ?_, ?_, ?_⟩
  · intro h
    unfold showLCDVoltage
    rw [if_neg h]
  · unfold showLCDVoltage
    rw [if_neg (by push_neg; intro h; norm_num at h)]
  · unfold showLCDVoltage
    rw [if_neg (by push_neg; intro h; norm_num)]
  · intro hv0 hub
    have hv10 : v < 10 := by linarith
    have hv100 : v < 100 := by linarith
    unfold showLCDVoltage
    rw [if_pos ⟨hv0, hv100⟩, if_pos hv10]
    have hfl : Int.floor (v * 100 + 1 / 2) < 1000 := Int.floor_lt.mpr (by push_cast; linarith)
    have hrc : roundCenti v < 1000 := by
      unfold roundCenti
      omega
    rw [String.length_append, fmt2_length, natStr_length_one _ (by omega)]
    decide
  · intro hv10 hub
    have hv100 : v < 100 := by linarith
    unfold showLCDVoltage
    rw [if_pos ⟨by linarith, hv100⟩, if_neg (not_lt.mpr hv10)]
    have hfl : Int.floor (v * 100 + 1 / 2) < 10000 := Int.floor_lt.mpr (by push_cast; linarith)
    have hge : (1000 : ℤ) ≤ Int.floor (v * 100 + 1 / 2) := Int.le_floor.mpr (by push_cast; linarith)
    have hrc1 : roundCenti v < 10000 := by
      unfold roundCenti
      omega
    have hrc2 : 1000 ≤ roundCenti v := by
      unfold roundCenti
      omega
    rw [String.length_append, fmt2_length, natStr_length_two _ (by omega) (by omega)]
    decide
  · intro hv0 hv10 hlb
    have hge : (1000 : ℤ) ≤ Int.floor (v * 100 + 1 / 2) := Int.le_floor.mpr (by push_cast; linarith)
    have hlt : Int.floor (v * 100 + 1 / 2) < 1001 := Int.floor_lt.mpr (by push_cast; linarith)
    have hrc : roundCenti v = 1000 := by
      unfold roundCenti
      omega
    unfold showLCDVoltage
    rw [if_pos ⟨hv0, by linarith⟩, if_pos hv10]
    unfold fmt2
    rw [hrc]
    decide
  · intro hv100 hlb
    have hv10 : (10 : ℚ) ≤ v := by linarith
    have hge : (10000 : ℤ) ≤ Int.floor (v * 100 + 1 / 2) := Int.le_floor.mpr (by push_cast; linarith)
    have hlt : Int.floor (v * 100 + 1 / 2) < 10001 := Int.floor_lt.mpr (by push_cast; linarith)
    have hrc : roundCenti v = 10000 := by
      unfold roundCenti
      omega
    unfold showLCDVoltage
    rw [if_pos ⟨by linarith, hv100⟩, if_neg (not_lt.mpr hv10)]
    unfold fmt2
    rw [hrc]
    decide

theorem c8_display_amended_witness :
    showLCDVoltage (-1) = "--.--" ∧ (showLCDVoltage (13 / 2)).length = 5 ∧
    showLCDVoltage (9999 / 1000) = "010.00" ∧
    showLCDVoltage (99999 / 1000) = "100.00" :=
  ⟨(c8_display_amended (-1)).2.1,
   (c8_display_amended (13 / 2)).2.2.2.1 (by norm_num) (by norm_num),
   (c8_display_amended (9999 / 1000)).2.2.2.2.2.1 (by norm_num) (by norm_num) (by norm_num),
   (c8_display_amended (99999 / 1000)).2.2.2.2.2.2 (by norm_num) (by norm_num)⟩

/-- C9: encoding is deterministic — equal input voltage values give a
byte-identical console line, including the checksum field. -/
theorem c9_encode_deterministic (r b1 b2 b3 b4 q a1 a2 a3 a4 : ℚ)
    (h : (r, b1, b2, b3, b4) = (q, a1, a2, a3, a4)) :
    consoleLine r b1 b2 b3 b4 = consoleLine q a1 a2 a3 a4 ∧
    chksumCRC8 r b1 b2 b3 b4 = chksumCRC8 q a1 a2 a3 a4 := by
  simp only [Prod.mk.injEq] at h
  obtain ⟨rfl, rfl, rfl, rfl, rfl⟩ := h
  exact ⟨rfl, rfl⟩

theorem c9_encode_deterministic_witness :
    consoleLine 1 2 3 4 5 = consoleLine 1 2 3 4 5 :=
  (c9_encode_deterministic 1 2 3 4 5 1 2 3 4 5 rfl).1

end SLABatMon
